import Mathlib

/-!
Shallow embedding of `src/tokenizers/bpe.py` (class `BytePairEncoder`).

Python dicts are insertion-ordered mappings; we embed them as association
lists (`List (κ × ν)`), where `dict[k] = v` replaces the value in place when
the key is present and appends `(k, v)` at the end otherwise, matching
CPython semantics. Python integers are embedded as `Int` where they may be
negative (the configuration values) and as `Nat` where they are counts,
symbols or indices.
-/

namespace BPE

/-- A pair of adjacent symbols, the key type of the vocabulary. -/
abbrev Pair := Nat × Nat

/-- The vocabulary `self.vocab : Dict[Tuple[Any, Any], int]`, as an
insertion-ordered association list. -/
abbrev Vocab := List (Pair × Nat)

/-- A frequency table `freq_map : Dict[Tuple[Any, Any], int]`, as an
insertion-ordered association list. -/
abbrev FreqMap := List (Pair × Nat)

/-- Dict lookup `m[p]`: the value at the first (and in practice only)
occurrence of key `p`. -/
def lookupMap : List (Pair × Nat) → Pair → Option Nat
  | [], _ => none
  | (k, v) :: rest, p => if k = p then some v else lookupMap rest p

/-- Dict assignment `m[p] = v`: replace in place when the key is present,
append at the end otherwise. -/
def setKey : List (Pair × Nat) → Pair → Nat → List (Pair × Nat)
  | [], p, v => [(p, v)]
  | (k, w) :: rest, p, v =>
    if k = p then (k, v) :: rest else (k, w) :: setKey rest p v

/-- Defaultdict increment `m[p] += v`: bump in place when the key is
present, append `(p, v)` otherwise. -/
def bumpKey : List (Pair × Nat) → Pair → Nat → List (Pair × Nat)
  | [], p, v => [(p, v)]
  | (k, w) :: rest, p, v =>
    if k = p then (k, w + v) :: rest else (k, w) :: bumpKey rest p v

/-- Python `max(m.values())` over a (nonempty) dict of `Nat` values; the
fold over `0` agrees with the true maximum whenever the dict is nonempty
(the only situation the source evaluates it in). -/
def maxValues (m : List (Pair × Nat)) : Nat :=
  m.foldl (fun a kv => max a kv.2) 0

/-- The object state set up by `BytePairEncoder.__init__`. -/
structure BytePairEncoder where
  lowerFrequencyLimit : Int
  maxIterations : Int
  vocab : Vocab
  deriving Repr, DecidableEq

/-- Embedding of `BytePairEncoder.__init__`: the constructor performs no
validation and stores its three arguments unmodified; it never raises, so
the result is always `Except.ok`. -/
def init (lowerFrequencyLimit maxIterations : Int) (vocabulary : Vocab) :
    Except String BytePairEncoder :=
  Except.ok
    { lowerFrequencyLimit := lowerFrequencyLimit
      maxIterations := maxIterations
      vocab := vocabulary }

/-- Embedding of `_count_pair_frequencies`: count every adjacent pair
`(sequence[i], sequence[i+1])` for `i in range(len(sequence) - 1)` into a
fresh defaultdict. -/
def countPairFrequencies (sequence : List Nat) : FreqMap :=
  (List.range (sequence.length - 1)).foldl
    (fun m i => bumpKey m (sequence.getD i 0, sequence.getD (i + 1) 0) 1) []

/-- Embedding of `_find_most_frequent_pairs`: if the table is empty return
`[]`; otherwise return, in key insertion order, every pair whose count
equals `max(max(freq_map.values()), self.lower_frequency_limit)`. -/
def findMostFrequentPairs (freqMap : FreqMap) (lowerFrequencyLimit : Int) :
    List Pair :=
  if freqMap.isEmpty then []
  else
    (freqMap.map Prod.fst).filter fun x =>
      decide (((lookupMap freqMap x).getD 0 : Int) =
        max (maxValues freqMap : Int) lowerFrequencyLimit)

/-- Embedding of `_update_vocabulary`: `next_token` starts at `0` when the
vocabulary is empty and at `max(self.vocab.values()) + 1` otherwise; each
pair in the given list is then assigned `next_token` (by dict assignment,
which overwrites a pair already present) and the counter is incremented. -/
def updateVocabulary (vocab : Vocab) (pairs : List Pair) : Vocab :=
  let nextToken := if vocab.isEmpty then 0 else maxValues vocab + 1
  (pairs.foldl (fun acc pair => (setKey acc.1 pair acc.2, acc.2 + 1))
    (vocab, nextToken)).1

/-- The `while i < len(sequence) - 1` loop of `_compress_sequence`, together
with the trailing `if i == len(sequence) - 1` append. Both comparisons are
taken over `Int`, matching Python's `len(sequence) - 1` (which is `-1` on an
empty sequence). The dead local `flag` of the source is omitted: it is
written and never read. -/
def compressLoop (sequence : List Nat) (vocab : Vocab) (i : Nat) : List Nat :=
  if _h : (i : Int) < (sequence.length : Int) - 1 then
    let pair := (sequence.getD i 0, sequence.getD (i + 1) 0)
    match lookupMap vocab pair with
    | some t => t :: compressLoop sequence vocab (i + 2)
    | none => sequence.getD i 0 :: compressLoop sequence vocab (i + 1)
  else if (i : Int) = (sequence.length : Int) - 1 then
    [sequence.getD (sequence.length - 1) 0]
  else []
termination_by sequence.length - i
decreasing_by
  · omega
  · omega

/-- Embedding of `_compress_sequence`: run the scan from position `0`. -/
def compressSequence (sequence : List Nat) (vocab : Vocab) : List Nat :=
  compressLoop sequence vocab 0

/-- The Sequence Compressor as the spec describes it (§4.4 of the spec):
scan left to right; a position whose pair is a vocabulary key emits the
mapped symbol and advances by 2, any other position emits its symbol and
advances by 1; sequences of length 0 or 1 pass through unchanged. Written
as the natural structural recursion on the sequence; used as the
specification side of the refinement theorem for the scan loop. -/
def compressSpec (vocab : Vocab) : List Nat → List Nat
  | [] => []
  | [a] => [a]
  | a :: b :: rest =>
    match lookupMap vocab (a, b) with
    | some t => t :: compressSpec vocab rest
    | none => a :: compressSpec vocab (b :: rest)

/-- The per-iteration aggregation in `train_bpe`: sum the per-sequence
frequency tables into one defaultdict, in sequence order and, within a
sequence, in first-occurrence order of the pairs. -/
def aggregateFrequencies (seqs : List (List Nat)) : FreqMap :=
  seqs.foldl
    (fun fm seq =>
      (countPairFrequencies seq).foldl (fun fm kv => bumpKey fm kv.1 kv.2) fm)
    []

/-- The `for i in range(self.max_iterations)` loop of `train_bpe`, with the
remaining iteration budget as fuel: count pair frequencies across all
sequences, select the frequent pairs, stop when none qualify (`break`),
otherwise register them and recompress every sequence with the updated
vocabulary. Returns the final vocabulary and sequence list. -/
def trainLoop (lowerFrequencyLimit : Int) :
    Nat → Vocab → List (List Nat) → Vocab × List (List Nat)
  | 0, vocab, seqs => (vocab, seqs)
  | fuel + 1, vocab, seqs =>
    let freqMap := aggregateFrequencies seqs
    let frequentPairs := findMostFrequentPairs freqMap lowerFrequencyLimit
    if frequentPairs.isEmpty then (vocab, seqs)
    else
      let vocab2 := updateVocabulary vocab frequentPairs
      let seqs2 := seqs.map fun seq => compressSequence seq vocab2
      trainLoop lowerFrequencyLimit fuel vocab2 seqs2

/-- UTF-8 encoding of one chunk, `list(chunk.encode('utf-8'))`. -/
def encodeChunk (chunk : String) : List Nat :=
  chunk.toUTF8.toList.map fun b => b.toNat

/-- Embedding of `train_bpe` downstream of `regex_chunking`: the
pre-tokenizer is the external collaborator of the spec (§2), so the trainer
here consumes its output, the ordered list of text chunks. Each chunk
becomes its UTF-8 byte sequence and the iteration loop runs with
`range(self.max_iterations)` as the budget (empty when
`max_iterations <= 0`, matching Python `range`). -/
def trainBpe (enc : BytePairEncoder) (chunks : List String) : BytePairEncoder :=
  let seqs := chunks.map encodeChunk
  let result := trainLoop enc.lowerFrequencyLimit enc.maxIterations.toNat
    enc.vocab seqs
  { enc with vocab := result.1 }

/-! Helper lemmas about the dictionary embedding. -/

/-- Lookup misses exactly the keys absent from the association list. -/
theorem lookupMap_eq_none_iff (m : List (Pair × Nat)) (p : Pair) :
    lookupMap m p = none ↔ p ∉ m.map Prod.fst := by
  induction m with
  | nil => simp [lookupMap]
  | cons kv rest ih =>
    obtain ⟨k, v⟩ := kv
    by_cases hk : k = p
    · subst hk
      simp [lookupMap]
    · simp [lookupMap, hk, ih, Ne.symm hk]

/-- A successful lookup means the key occurs in the association list. -/
theorem lookupMap_isSome_iff (m : List (Pair × Nat)) (p : Pair) :
    (∃ c, lookupMap m p = some c) ↔ p ∈ m.map Prod.fst := by
  rcases h : lookupMap m p with _ | c
  · rw [lookupMap_eq_none_iff] at h
    simp [h]
  · have : p ∈ m.map Prod.fst := by
      by_contra hp
      rw [← lookupMap_eq_none_iff] at hp
      rw [h] at hp
      cases hp
    simp [this]

/-- A fold of `max` over values never drops below its initial value. -/
theorem foldl_max_ge_init (m : List (Pair × Nat)) :
    ∀ a : Nat, a ≤ m.foldl (fun x kv => max x kv.2) a := by
  induction m with
  | nil => intro a; simp
  | cons kv rest ih =>
    intro a
    calc a ≤ max a kv.2 := le_max_left _ _
    _ ≤ rest.foldl (fun x kv => max x kv.2) (max a kv.2) := ih _
    _ = ((kv :: rest).foldl (fun x kv => max x kv.2) a) := by simp

/-- Any value found by lookup is bounded by the fold of `max` over values. -/
theorem lookupMap_le_foldl_max (m : List (Pair × Nat)) (p : Pair) (c : Nat) :
    lookupMap m p = some c →
    ∀ a : Nat, c ≤ m.foldl (fun x kv => max x kv.2) a := by
  induction m with
  | nil => intro h; cases h
  | cons kv rest ih =>
    obtain ⟨k, v⟩ := kv
    intro h a
    by_cases hk : k = p
    · rw [lookupMap, if_pos hk] at h
      cases h
      calc c ≤ max a c := le_max_right _ _
      _ ≤ rest.foldl (fun x kv => max x kv.2) (max a c) := foldl_max_ge_init _ _
      _ = (((k, c) :: rest).foldl (fun x kv => max x kv.2) a) := by simp
    · rw [lookupMap, if_neg hk] at h
      simpa using ih h (max a v)

/-- Any value found by lookup is bounded by `maxValues`. -/
theorem lookupMap_le_maxValues (m : List (Pair × Nat)) (p : Pair) (c : Nat)
    (h : lookupMap m p = some c) : c ≤ maxValues m :=
  lookupMap_le_foldl_max m p c h 0

/-- Dict assignment at one key does not change lookup at any other key. -/
theorem lookupMap_setKey_ne (m : List (Pair × Nat)) (q : Pair) (v : Nat)
    (k : Pair) (hk : k ≠ q) : lookupMap (setKey m q v) k = lookupMap m k := by
  induction m with
  | nil => simp [setKey, lookupMap, Ne.symm hk]
  | cons kv rest ih =>
    obtain ⟨k', v'⟩ := kv
    by_cases hq : k' = q
    · subst hq
      simp [setKey, lookupMap, Ne.symm hk]
    · simp only [setKey, if_neg hq, lookupMap]
      by_cases he : k' = k
      · simp [he]
      · simp [he, ih]

/-! Helper lemmas about the compression scan. -/

/-- The index-based scan loop of `_compress_sequence`, started at position
`i`, computes the structural-recursion compressor on the suffix from `i`. -/
theorem compressLoop_eq_spec (vocab : Vocab) (sequence : List Nat) (i : Nat) :
    compressLoop sequence vocab i = compressSpec vocab (sequence.drop i) := by
  rw [compressLoop]
  by_cases h : (i : Int) < (sequence.length : Int) - 1
  · have hi1 : i + 1 < sequence.length := by omega
    have hi : i < sequence.length := by omega
    have hd : sequence.drop i =
        sequence[i] :: sequence[i + 1] :: sequence.drop (i + 2) := by
      rw [List.drop_eq_getElem_cons hi, List.drop_eq_getElem_cons hi1]
    rw [dif_pos h]
    simp only [List.getD_eq_getElem sequence 0 hi,
      List.getD_eq_getElem sequence 0 hi1, hd, compressSpec]
    rcases hlk : lookupMap vocab (sequence[i], sequence[i + 1]) with _ | t
    · rw [compressLoop_eq_spec vocab sequence (i + 1),
        List.drop_eq_getElem_cons hi1]
    · rw [compressLoop_eq_spec vocab sequence (i + 2)]
  · rw [dif_neg h]
    by_cases he : (i : Int) = (sequence.length : Int) - 1
    · have hi : i < sequence.length := by omega
      have hlen : sequence.length = i + 1 := by omega
      have hd : sequence.drop i = [sequence[i]] := by
        rw [List.drop_eq_getElem_cons hi]
        congr 1
        apply List.drop_eq_nil_of_le
        omega
      rw [if_pos he, hd]
      simp only [compressSpec]
      congr 1
      rw [hlen]
      simp [List.getD, List.getElem?_eq_getElem hi]
    · have hge : sequence.length ≤ i := by omega
      rw [if_neg he, List.drop_eq_nil_of_le hge]
      rfl
termination_by sequence.length - i
decreasing_by
  · omega
  · omega

/-- One structural compression pass never lengthens a sequence. -/
theorem compressSpec_length_le (vocab : Vocab) (l : List Nat) :
    (compressSpec vocab l).length ≤ l.length := by
  match l with
  | [] => simp [compressSpec]
  | [a] => simp [compressSpec]
  | a :: b :: rest =>
    rw [compressSpec]
    rcases hlk : lookupMap vocab (a, b) with _ | t
    · have := compressSpec_length_le vocab (b :: rest)
      simp only [List.length_cons] at *
      omega
    · have := compressSpec_length_le vocab rest
      simp only [List.length_cons] at *
      omega
termination_by l.length

/-- One structural compression pass at most halves a sequence. -/
theorem compressSpec_length_ge (vocab : Vocab) (l : List Nat) :
    (l.length + 1) / 2 ≤ (compressSpec vocab l).length := by
  match l with
  | [] => simp [compressSpec]
  | [a] => simp [compressSpec]
  | a :: b :: rest =>
    rw [compressSpec]
    rcases hlk : lookupMap vocab (a, b) with _ | t
    · have := compressSpec_length_ge vocab (b :: rest)
      simp only [List.length_cons] at *
      omega
    · have := compressSpec_length_ge vocab rest
      simp only [List.length_cons] at *
      omega
termination_by l.length

/-- When no adjacent pair of the sequence is a vocabulary key, the
structural compression pass is the identity. -/
theorem compressSpec_fixpoint (vocab : Vocab) (l : List Nat)
    (h : ∀ i < l.length - 1,
      lookupMap vocab (l.getD i 0, l.getD (i + 1) 0) = none) :
    compressSpec vocab l = l := by
  match l with
  | [] => rfl
  | [a] => rfl
  | a :: b :: rest =>
    have h0 : lookupMap vocab (a, b) = none := by
      have := h 0 (by simp)
      simpa [List.getD] using this
    rw [compressSpec, h0]
    show a :: compressSpec vocab (b :: rest) = a :: b :: rest
    congr 1
    apply compressSpec_fixpoint vocab (b :: rest)
    intro i hi
    have := h (i + 1) (by simp at hi ⊢; omega)
    simpa [List.getD] using this
termination_by l.length

/-- The accumulator-generalised form of `_update_vocabulary`'s assignment
loop: a pair not among those being registered keeps its lookup result. -/
theorem foldl_setKey_lookup_not_mem (pairs : List Pair) :
    ∀ (acc : Vocab × Nat) (p : Pair), p ∉ pairs →
    lookupMap (pairs.foldl
      (fun acc pair => (setKey acc.1 pair acc.2, acc.2 + 1)) acc).1 p =
    lookupMap acc.1 p := by
  induction pairs with
  | nil => intro acc p _; rfl
  | cons q rest ih =>
    intro acc p hp
    simp only [List.foldl_cons]
    rw [ih _ p (fun h => hp (List.mem_cons_of_mem _ h))]
    exact lookupMap_setKey_ne acc.1 q acc.2 p
      (fun h => hp (h ▸ List.mem_cons_self _ _))

/-- The scan of `_compress_sequence` computes the structural one-pass
compressor on the whole sequence. -/
theorem compressSequence_eq_compressSpec (sequence : List Nat) (vocab : Vocab) :
    compressSequence sequence vocab = compressSpec vocab sequence := by
  rw [compressSequence, compressLoop_eq_spec, List.drop_zero]

/-- The training loop restated with the structural compressor in place of
the scan loop; being structurally recursive throughout, this form is
kernel-evaluable on concrete inputs. -/
def trainLoopExec (lowerFrequencyLimit : Int) :
    Nat → Vocab → List (List Nat) → Vocab × List (List Nat)
  | 0, vocab, seqs => (vocab, seqs)
  | fuel + 1, vocab, seqs =>
    let freqMap := aggregateFrequencies seqs
    let frequentPairs := findMostFrequentPairs freqMap lowerFrequencyLimit
    if frequentPairs.isEmpty then (vocab, seqs)
    else
      let vocab2 := updateVocabulary vocab frequentPairs
      let seqs2 := seqs.map fun seq => compressSpec vocab2 seq
      trainLoopExec lowerFrequencyLimit fuel vocab2 seqs2

/-- The training loop agrees with its kernel-evaluable restatement. -/
theorem trainLoop_eq_exec (L : Int) : ∀ (fuel : Nat) (vocab : Vocab)
    (seqs : List (List Nat)),
    trainLoop L fuel vocab seqs = trainLoopExec L fuel vocab seqs := by
  intro fuel
  induction fuel with
  | zero => intro vocab seqs; rfl
  | succ n ih =>
    intro vocab seqs
    simp only [trainLoop, trainLoopExec, compressSequence_eq_compressSpec]
    split
    · rfl
    · exact ih _ _

/-! Claim theorems. -/

/-- C1: evaluation of vocabulary registration at the failing input: over the
empty Vocabulary, registering the pair (97, 97) assigns it identifier 0 —
the source sets `next_token = 0` when the vocabulary is empty — not 256 as
the claim states, so the registered value is not a Symbol ≥ 256. -/
theorem updateVocabulary_empty_assigns_zero :
    updateVocabulary [] [(97, 97)] = [((97, 97), 0)] ∧
    lookupMap (updateVocabulary [] [(97, 97)]) (97, 97) = some 0 ∧
    ¬(∀ v ∈ (updateVocabulary [] [(97, 97)]).map Prod.snd, 256 ≤ v) := by
  decide

/-- C2: evaluation of the training loop at the failing input: "aaaa" is the
single chunk [97, 97, 97, 97]; with lower_frequency_limit 1, budget 100 and
an empty initial Vocabulary the loop does register (97, 97) first and then
the pair of its merged symbol, and does converge with final sequence of
length 1, but the identifiers are 0 and 1 (and the second key is (0, 0)),
not 256 and 257 with second key (256, 256) as the claim states. -/
theorem trainLoop_aaaa_result :
    trainLoop 1 100 [] [[97, 97, 97, 97]] =
      ([((97, 97), 0), ((0, 0), 1)], [[1]]) ∧
    aggregateFrequencies [[97, 97, 97, 97]] = [((97, 97), 3)] ∧
    compressSequence [97, 97, 97, 97] [((97, 97), 0)] = [0, 0] ∧
    (trainLoop 1 100 [] [[97, 97, 97, 97]]).1 ≠
      [((97, 97), 256), ((256, 256), 257)] := by
  refine ⟨?_, by decide, ?_, ?_⟩
  · rw [trainLoop_eq_exec]
    decide
  · rw [compressSequence_eq_compressSpec]
    decide
  · rw [trainLoop_eq_exec]
    decide

/-- C3: the Merge Selector returns exactly the pairs whose count equals
`T = max(max of the table values if non-empty else 0, L)`; it returns the
empty list when the table is empty or when the maximum observed count is
strictly below `L`; and an empty selector result stops the training loop
with the state unchanged. -/
theorem findMostFrequentPairs_characterization (freqMap : FreqMap) (L : Int) :
    (∀ p : Pair, p ∈ findMostFrequentPairs freqMap L ↔
      ∃ c, lookupMap freqMap p = some c ∧
        (c : Int) = max (maxValues freqMap : Int) L) ∧
    (freqMap = [] → findMostFrequentPairs freqMap L = []) ∧
    ((maxValues freqMap : Int) < L → findMostFrequentPairs freqMap L = []) ∧
    (∀ (fuel : Nat) (vocab : Vocab) (seqs : List (List Nat)),
      findMostFrequentPairs (aggregateFrequencies seqs) L = [] →
      trainLoop L (fuel + 1) vocab seqs = (vocab, seqs)) := by
  refine ⟨?_, ?_, ?_, ?_⟩
  · intro p
    unfold findMostFrequentPairs
    by_cases hemp : freqMap.isEmpty = true
    · rw [if_pos hemp]
      have he : freqMap = [] := List.isEmpty_iff.mp hemp
      subst he
      simp [lookupMap]
    · rw [if_neg hemp, List.mem_filter]
      constructor
      · rintro ⟨hmem, hpred⟩
        obtain ⟨c, hc⟩ := (lookupMap_isSome_iff freqMap p).mpr hmem
        refine ⟨c, hc, ?_⟩
        simp only [hc, Option.getD_some, decide_eq_true_eq] at hpred
        exact hpred
      · rintro ⟨c, hc, hT⟩
        refine ⟨(lookupMap_isSome_iff freqMap p).mp ⟨c, hc⟩, ?_⟩
        simp [hc, hT]
  · intro h
    subst h
    rfl
  · intro hlt
    unfold findMostFrequentPairs
    by_cases hemp : freqMap.isEmpty = true
    · rw [if_pos hemp]
    · rw [if_neg hemp, List.filter_eq_nil_iff]
      intro x hx hpred
      obtain ⟨c, hc⟩ := (lookupMap_isSome_iff freqMap x).mpr hx
      have hle := lookupMap_le_maxValues freqMap x c hc
      rw [hc] at hpred
      simp only [Option.getD_some, decide_eq_true_eq] at hpred
      rw [max_eq_right hlt.le] at hpred
      omega
  · intro fuel vocab seqs hsel
    simp [trainLoop, hsel]

/-- C3 witness: the characterization and the convergence behaviour at
concrete tables and a concrete training state. -/
theorem findMostFrequentPairs_characterization_witness :
    ((97, 97) ∈ findMostFrequentPairs [((97, 97), 3)] 1) ∧
    findMostFrequentPairs ([] : FreqMap) 1 = [] ∧
    findMostFrequentPairs [((97, 97), 1)] 2 = [] ∧
    trainLoop 1 1 [] [[5]] = ([], [[5]]) :=
  ⟨((findMostFrequentPairs_characterization [((97, 97), 3)] 1).1
      (97, 97)).mpr ⟨3, by decide, by decide⟩,
    (findMostFrequentPairs_characterization [] 1).2.1 rfl,
    (findMostFrequentPairs_characterization [((97, 97), 1)] 2).2.2.1
      (by decide),
    (findMostFrequentPairs_characterization [] 1).2.2.2 0 [] [[5]]
      (by decide)⟩

/-- C4: the index-based scan of `_compress_sequence` — examine pair-start
positions, emit the mapped symbol and advance by 2 on a vocabulary hit,
emit the current symbol and advance by 1 otherwise, then append the last
element exactly when the final position is `len - 1` — computes the
left-to-right structural one-pass compressor, and sequences of length at
most 1 are returned unchanged. -/
theorem compressSequence_refines_spec (vocab : Vocab) :
    (∀ sequence : List Nat,
      compressSequence sequence vocab = compressSpec vocab sequence) ∧
    (∀ sequence : List Nat, sequence.length ≤ 1 →
      compressSequence sequence vocab = sequence) := by
  refine ⟨fun s => compressSequence_eq_compressSpec s vocab, ?_⟩
  intro s hs
  rw [compressSequence_eq_compressSpec]
  rcases s with _ | ⟨a, _ | ⟨b, rest⟩⟩
  · rfl
  · rfl
  · simp at hs

/-- C4 witness: the refinement at a concrete sequence and vocabulary, and
the length-1 pass-through at a concrete singleton. -/
theorem compressSequence_refines_spec_witness :
    compressSequence [97, 97, 97, 97] [((97, 97), 256)] =
      compressSpec [((97, 97), 256)] [97, 97, 97, 97] ∧
    compressSequence [97] [((97, 97), 256)] = [97] :=
  ⟨(compressSequence_refines_spec [((97, 97), 256)]).1 [97, 97, 97, 97],
    (compressSequence_refines_spec [((97, 97), 256)]).2 [97] (by decide)⟩

/-- C5 counterexample: registering a pair that is already present
overwrites its identifier — starting from the vocabulary {(97, 97) ↦ 256},
registering (97, 97) again reassigns it 257. -/
theorem updateVocabulary_overwrites_present_pair :
    lookupMap [((97, 97), 256)] (97, 97) = some 256 ∧
    lookupMap (updateVocabulary [((97, 97), 256)] [(97, 97)]) (97, 97) =
      some 257 ∧
    updateVocabulary [((97, 97), 256)] [(97, 97)] ≠ [((97, 97), 256)] := by
  decide

/-- C5 (amended): registration preserves the identifier of every pair that
is not among the pairs being registered; only a re-registered pair has its
identifier overwritten. -/
theorem updateVocabulary_preserves_other_pairs (vocab : Vocab)
    (pairs : List Pair) (p : Pair) (hp : p ∉ pairs) :
    lookupMap (updateVocabulary vocab pairs) p = lookupMap vocab p := by
  simp only [updateVocabulary]
  exact foldl_setKey_lookup_not_mem pairs _ p hp

/-- C5 witness: registering (98, 98) leaves the identifier of the
already-present pair (97, 97) unchanged. -/
theorem updateVocabulary_preserves_other_pairs_witness :
    lookupMap (updateVocabulary [((97, 97), 256)] [(98, 98)]) (97, 97) =
      lookupMap [((97, 97), 256)] (97, 97) :=
  updateVocabulary_preserves_other_pairs [((97, 97), 256)] [(98, 98)]
    (97, 97) (by decide)

/-- C6 counterexample: construction with `max_iterations = 0` and with a
negative `lower_frequency_limit` both succeed — no error is raised at
configuration time, contrary to the claim. -/
theorem init_accepts_invalid_configuration :
    init 1 0 [] = Except.ok ⟨1, 0, []⟩ ∧
    init (-1) 100 [] = Except.ok ⟨-1, 100, []⟩ ∧
    (init 1 0 ([] : Vocab)).isOk = true :=
  ⟨rfl, rfl, rfl⟩

/-- C6 (amended): the constructor performs no validation at all — every
configuration, valid or invalid, is accepted and the three values are
stored unmodified. -/
theorem init_stores_unvalidated (lowerFrequencyLimit maxIterations : Int)
    (vocabulary : Vocab) :
    init lowerFrequencyLimit maxIterations vocabulary =
      Except.ok
        { lowerFrequencyLimit := lowerFrequencyLimit
          maxIterations := maxIterations
          vocab := vocabulary } :=
  rfl

/-- C7: one compression pass never lengthens a sequence, for every sequence
and every vocabulary. -/
theorem compressSequence_length_le (sequence : List Nat) (vocab : Vocab) :
    (compressSequence sequence vocab).length ≤ sequence.length := by
  rw [compressSequence, compressLoop_eq_spec, List.drop_zero]
  exact compressSpec_length_le vocab sequence

/-- C8: when no adjacent pair of the sequence is a vocabulary key, one
compression pass returns the sequence unchanged. -/
theorem compressSequence_fixpoint (sequence : List Nat) (vocab : Vocab)
    (h : ∀ i < sequence.length - 1,
      lookupMap vocab (sequence.getD i 0, sequence.getD (i + 1) 0) = none) :
    compressSequence sequence vocab = sequence := by
  rw [compressSequence, compressLoop_eq_spec, List.drop_zero]
  exact compressSpec_fixpoint vocab sequence h

/-- C8 witness: a concrete sequence none of whose adjacent pairs is a key
of the concrete vocabulary passes through unchanged. -/
theorem compressSequence_fixpoint_witness :
    compressSequence [1, 2, 3] [((5, 5), 9)] = [1, 2, 3] :=
  compressSequence_fixpoint [1, 2, 3] [((5, 5), 9)] (by decide)

/-- C9: training is deterministic — two runs of the trainer from the same
configuration, initial vocabulary and chunk list produce the same final
state and in particular identical vocabularies (same keys, same assigned
identifiers, same insertion order). -/
theorem trainBpe_deterministic (enc : BytePairEncoder) (chunks : List String)
    (r₁ r₂ : BytePairEncoder) (h₁ : r₁ = trainBpe enc chunks)
    (h₂ : r₂ = trainBpe enc chunks) : r₁ = r₂ ∧ r₁.vocab = r₂.vocab := by
  subst h₁
  subst h₂
  exact ⟨rfl, rfl⟩

/-- C9 witness: two runs at a concrete configuration and input agree. -/
theorem trainBpe_deterministic_witness :
    trainBpe ⟨1, 100, []⟩ [] = trainBpe ⟨1, 100, []⟩ [] ∧
    (trainBpe ⟨1, 100, []⟩ ([] : List String)).vocab =
      (trainBpe ⟨1, 100, []⟩ ([] : List String)).vocab :=
  trainBpe_deterministic ⟨1, 100, []⟩ [] _ _ rfl rfl

/-- C10: one compression pass at most halves a sequence — the output length
is at least the ceiling of half the input length, for every sequence and
every vocabulary. -/
theorem compressSequence_at_most_halves (sequence : List Nat) (vocab : Vocab) :
    (sequence.length + 1) / 2 ≤ (compressSequence sequence vocab).length := by
  rw [compressSequence, compressLoop_eq_spec, List.drop_zero]
  exact compressSpec_length_ge vocab sequence

end BPE
